import Mathlib

/-!
Verification development for the `sexpr` S-expression codec (Rust).

The Rust sources under `src/` are shallowly embedded as executable Lean
definitions: bytes are `Nat` ASCII codes, byte buffers are `List Nat`,
machine integers are `Nat`/`Int` with explicit wrap-around where the source
relies on it, and fallible code returns `Except`.  A Rust panic is modelled
as the distinguished outcome `PErr.crash`.

The crate's `read.rs` (byte-cursor / string-scanning layer) and
`sexp/de.rs` (the visitor building a generic `Sexp` tree) are not present
in the source snapshot; those pieces are modelled from the specification
and are marked `Modelled from the spec:` in their doc comments.  IEEE-754
arithmetic in the float fallback path is abstracted by exact integer
arithmetic on the decimal parts; the only observation taken from it is the
overflow-to-infinity check, modelled as an exact comparison against 2^1024
(the code and the model agree away from the rounding boundary, and every
input appearing in a theorem below is far from that boundary).
-/

namespace SexprSpec

/-! ## Error model (src/error.rs) -/

/-- Error codes of `src/error.rs` (`enum ErrorCode`).  The `Io` payload and
the message text are irrelevant to the claims and are dropped. -/
inductive ErrorCode
  | Message (msg : String)
  | Io
  | EofWhileParsingList
  | EofWhileParsingAlist
  | EofWhileParsingString
  | EofWhileParsingValue
  | ExpectedPairDot
  | ExpectedListEltOrEnd
  | ExpectedPairOrEnd
  | ExpectedList
  | ExpectedSomeIdent
  | ExpectedSomeValue
  | ExpectedSomeString
  | InvalidEscape
  | InvalidNumber
  | NumberOutOfRange
  | InvalidUnicodeCodePoint
  | KeyMustBeAString
  | LoneLeadingSurrogateInHexEscape
  | TrailingCharacters
  | UnexpectedEndOfHexEscape
  | RecursionLimitExceeded
  deriving DecidableEq, Repr

/-- Error categories of `src/error.rs` (`enum Category`). -/
inductive Category
  | Io
  | Syntax
  | Data
  | Eof
  deriving DecidableEq, Repr

/-- Models `Error::classify` from src/error.rs: the exact arm structure of the
`match` on the error code. -/
def classify : ErrorCode → Category
  | .Message _ => .Data
  | .Io => .Io
  | .EofWhileParsingList
  | .EofWhileParsingAlist
  | .EofWhileParsingString
  | .EofWhileParsingValue => .Eof
  | .ExpectedPairDot
  | .ExpectedListEltOrEnd
  | .ExpectedPairOrEnd
  | .ExpectedList
  | .ExpectedSomeIdent
  | .ExpectedSomeValue
  | .ExpectedSomeString
  | .InvalidEscape
  | .InvalidNumber
  | .NumberOutOfRange
  | .InvalidUnicodeCodePoint
  | .KeyMustBeAString
  | .LoneLeadingSurrogateInHexEscape
  | .TrailingCharacters
  | .UnexpectedEndOfHexEscape
  | .RecursionLimitExceeded => .Syntax

/-- Outcome of running a piece of decoder code: a returned `Error`
(identified by its code; positions are not observed by any claim), a Rust
panic (`crash`, e.g. `Option::unwrap` on `None`), or exhaustion of the
artificial recursion budget used to express the decoder's loops as total
functions (`fuelOut`; unreachable under the canonical budgets used by the
entry points below). -/
inductive PErr
  | code (c : ErrorCode)
  | crash
  | fuelOut
  deriving DecidableEq, Repr

/-! ## Value model (src/atom.rs, src/number.rs, src/sexp/mod.rs) -/

/-- Symbolic `f64`: an exact sign/significand/decimal-exponent triple.  The
decoder only ever builds finite floats (the range check rejects the rest),
so finiteness is implicit in the representation. -/
structure Fl where
  neg : Bool
  sig : Nat
  exp : Int
  deriving DecidableEq, Repr

/-- Models `Atom` of src/atom.rs (`enum A`): a symbol, keyword or string, each
wrapping a text payload (bytes). -/
inductive Atom
  | symbol (s : List Nat)
  | keyword (s : List Nat)
  | string (s : List Nat)
  deriving DecidableEq, Repr

/-- Models `Atom::discriminate` from src/atom.rs, byte for byte:
`s.starts_with("#:")` keys the keyword branch and strips the marker via
`split_at(2)`; a payload that starts and ends with `"` (or starts and ends
with `'`) takes the string branch, whose payload is `&s[1..s.len()]`; any
other payload is a symbol, unchanged.  (35 = `#`, 58 = `:`, 34 = `"`,
39 = `'`.) -/
def Atom.discriminate (s : List Nat) : Atom :=
  if s.take 2 = [35, 58] then
    .keyword (s.drop 2)
  else if (s.head? = some 34 ∧ s.getLast? = some 34) ∨
          (s.head? = some 39 ∧ s.getLast? = some 39) then
    .string (s.drop 1)
  else
    .symbol s

/-- Models `Atom::from_str` from src/atom.rs: delegates to `discriminate`. -/
def Atom.from_str (s : List Nat) : Atom := Atom.discriminate s

/-- Models `Number` of src/number.rs (`enum N`): `PosInt(u64)`, `NegInt(i64)`,
`Float(f64)`. -/
inductive Number
  | PosInt (n : Nat)
  | NegInt (n : Int)
  | Float (f : Fl)
  deriving DecidableEq, Repr

/-- Models `From<u64> for Number` from src/number.rs. -/
def Number.from_u64 (n : Nat) : Number := .PosInt n

/-- Models `From<i64> for Number` from src/number.rs: negative values become
`NegInt`, others `PosInt`. -/
def Number.from_i64 (i : Int) : Number :=
  if i < 0 then .NegInt i else .PosInt i.toNat

/-- Models `Sexp` of src/sexp/mod.rs. -/
inductive Sexp
  | nil
  | atom (a : Atom)
  | number (n : Number)
  | boolean (b : Bool)
  | improperList (xs : List Sexp) (tl : Sexp)
  | list (xs : List Sexp)

/-! ## Reader primitives

Modelled from the spec: the crate's `read.rs` (the `Read` trait with
`SliceRead`/`StrRead`/`IoRead`) is not part of the source snapshot.  Per
the spec the decoder is "single-pass over a byte cursor with one-byte
lookahead"; the cursor is modelled as the list of not-yet-consumed bytes.
Whitespace is space/tab/newline/carriage-return. -/

/-- Whitespace bytes accepted by `parse_whitespace` (src/de.rs):
space, newline, tab, carriage return. -/
def is_ws (c : Nat) : Bool := c = 32 || c = 10 || c = 9 || c = 13

/-- Models `Deserializer::parse_whitespace` (src/de.rs), acting on the remaining
input: consume leading whitespace.  The first byte of the result (if any)
is the peeked non-whitespace byte. -/
def skip_ws : List Nat → List Nat
  | [] => []
  | c :: r => if is_ws c then skip_ws r else c :: r

/-- ASCII decimal digit. -/
def is_digit (c : Nat) : Bool := 48 ≤ c && c ≤ 57

/-- ASCII letter (the `a..=z | A..=Z` dispatch range of `parse_value`). -/
def is_alpha (c : Nat) : Bool := (97 ≤ c && c ≤ 122) || (65 ≤ c && c ≤ 90)

/-- Modelled from the spec: `read.parse_symbol` scans "a letter followed by
letters/digits/symbol characters, read until a delimiter"; the delimiters
are whitespace, the parentheses and the string quote. -/
def is_symbol_byte (c : Nat) : Bool :=
  !(is_ws c) && c ≠ 40 && c ≠ 41 && c ≠ 34

/-- Modelled from the spec: `read.parse_symbol`, returning the symbol text
and the remaining input. -/
def parse_symbol (l : List Nat) : List Nat × List Nat :=
  (l.takeWhile is_symbol_byte, l.dropWhile is_symbol_byte)

/-- Modelled from the spec: decoding of one escape character inside a
quoted string — the escape set `\" \\ \/ \b \f \n \r \t` plus `\u00XX`.
Returns the decoded byte(s) and the rest, or the error the reader raises. -/
def parse_str_loop (acc : List Nat) : List Nat → Except PErr (List Nat × List Nat)
  | [] => .error (.code .EofWhileParsingString)
  | 34 :: r => .ok (acc.reverse, r)
  | 92 :: r =>
    match r with
    | [] => .error (.code .EofWhileParsingString)
    | 34 :: r2 => parse_str_loop (34 :: acc) r2
    | 92 :: r2 => parse_str_loop (92 :: acc) r2
    | 47 :: r2 => parse_str_loop (47 :: acc) r2
    | 98 :: r2 => parse_str_loop (8 :: acc) r2
    | 102 :: r2 => parse_str_loop (12 :: acc) r2
    | 110 :: r2 => parse_str_loop (10 :: acc) r2
    | 114 :: r2 => parse_str_loop (13 :: acc) r2
    | 116 :: r2 => parse_str_loop (9 :: acc) r2
    | 117 :: r2 =>
      match r2 with
      | h1 :: h2 :: h3 :: h4 :: r6 =>
        match hexVal h1, hexVal h2, hexVal h3, hexVal h4 with
        | some a, some b, some c, some d =>
          parse_str_loop ((((a * 16 + b) * 16 + c) * 16 + d) % 256 :: acc) r6
        | _, _, _, _ => .error (.code .InvalidEscape)
      | _ => .error (.code .UnexpectedEndOfHexEscape)
    | _ :: _ => .error (.code .InvalidEscape)
  | c :: r => parse_str_loop (c :: acc) r
where
  /-- Value of a hex digit byte, if it is one. -/
  hexVal (c : Nat) : Option Nat :=
    if 48 ≤ c ∧ c ≤ 57 then some (c - 48)
    else if 97 ≤ c ∧ c ≤ 102 then some (c - 87)
    else if 65 ≤ c ∧ c ≤ 70 then some (c - 55)
    else none

/-- Modelled from the spec: `read.parse_str`, called after the opening
quote has been consumed; returns the string contents (escapes decoded) and
the remaining input. -/
def parse_str (l : List Nat) : Except PErr (List Nat × List Nat) :=
  parse_str_loop [] l

/-! ## The number algorithm (src/de.rs) -/

/-- Models `u64::MAX`. -/
def U64MAX : Nat := 18446744073709551615

/-- The `overflow!` macro of src/de.rs:
`a >= c / 10 && (a > c / 10 || b > c % 10)` with `c = u64::MAX`. -/
def overflow_check (a b : Nat) : Bool :=
  decide (a ≥ U64MAX / 10) && (decide (a > U64MAX / 10) || decide (b > U64MAX % 10))

/-- Overflow-to-infinity test of the float fallback (`f64_from_parts`,
src/de.rs).  In the source the loop multiplies/divides an `f64` by entries
of the `POW10` table (covering exponents up to 308) and tests
`is_infinite`, and a positive exponent beyond the table with a nonzero
significand errors immediately; divisions (negative exponents) only shrink
the value and never error.  The IEEE rounding of the multiply is abstracted
by the exact comparison `sig * 10 ^ exp ≥ 2 ^ 1024` (the smallest value
past `f64` infinity threshold up to rounding). -/
def f64_overflow (sig : Nat) (exp : Int) : Bool :=
  if 0 ≤ exp then
    if exp ≤ 308 then decide (sig * 10 ^ exp.toNat ≥ 2 ^ 1024) else decide (sig ≠ 0)
  else false

/-- Models `Deserializer::f64_from_parts` (src/de.rs), on the symbolic float
representation: returns the signed decimal parts, or `NumberOutOfRange`
when the value overflows the `f64` range.  (`Ok(if pos { f } else { -f })`
becomes the `neg := !pos` field.) -/
def f64_from_parts (pos : Bool) (sig : Nat) (exp : Int) : Except PErr Fl :=
  if f64_overflow sig exp then .error (.code .NumberOutOfRange)
  else .ok ⟨!pos, sig, exp⟩

/-- The internal `enum Number` of src/de.rs (`F64`/`U64`/`I64`), distinct
from the public `Number` of src/number.rs. -/
inductive DNum
  | F64 (f : Fl)
  | U64 (n : Nat)
  | I64 (n : Int)
  deriving DecidableEq, Repr

/-- The `as i64` cast of a `u64` value: values at least `2^63` wrap to
negatives. -/
def castI64 (n : Nat) : Int :=
  if n < 2 ^ 63 then (n : Int) else (n : Int) - 2 ^ 64

/-- Models `i64::wrapping_neg`. -/
def wrapNegI64 (x : Int) : Int :=
  (-x + 2 ^ 63) % 2 ^ 64 - 2 ^ 63

/-- The digit-skipping loop in `parse_decimal` (src/de.rs) that ignores
fractional digits once the significand is saturated. -/
def eat_digits : List Nat → List Nat
  | [] => []
  | c :: r => if is_digit c then eat_digits r else c :: r

/-- The fractional-digit loop of `Deserializer::parse_decimal` (src/de.rs):
accumulate digits into the significand while room remains (decrementing the
exponent per digit), and once the next step would overflow, consume and
ignore all further digits.  Returns the updated significand, exponent,
whether at least one digit was seen, and the rest of the input. -/
def parse_decimal_loop (sig : Nat) (exp : Int) (one : Bool) :
    List Nat → Nat × Int × Bool × List Nat
  | [] => (sig, exp, one, [])
  | c :: r =>
    if is_digit c then
      if overflow_check sig (c - 48) then (sig, exp, true, eat_digits r)
      else parse_decimal_loop (sig * 10 + (c - 48)) (exp - 1) true r
    else (sig, exp, one, c :: r)

/-- Models `Deserializer::parse_decimal` (src/de.rs): called with the `.` still at
the head of the input (the function's first action is `eat_char`).  At
least one fractional digit is required, then the float is assembled by
`f64_from_parts`. -/
def parse_decimal (pos : Bool) (sig : Nat) (exp : Int) (l : List Nat) :
    Except PErr (Fl × List Nat) :=
  let (sig', exp', one, r) := parse_decimal_loop sig exp false l.tail
  if one then (f64_from_parts pos sig' exp').map (fun f => (f, r))
  else .error (.code .InvalidNumber)

/-- Models `Deserializer::parse_long_integer` (src/de.rs): after the `u64`
accumulator saturates, count further integer digits only as exponent
increments; a `.` switches to the fractional phase; anything else ends the
number. -/
def parse_long_integer (pos : Bool) (sig : Nat) (exp : Int) :
    List Nat → Except PErr (Fl × List Nat)
  | [] => (f64_from_parts pos sig exp).map (fun f => (f, []))
  | c :: r =>
    if is_digit c then parse_long_integer pos sig (exp + 1) r
    else if c = 46 then parse_decimal pos sig exp (c :: r)
    else (f64_from_parts pos sig exp).map (fun f => (f, c :: r))

/-- Models `Deserializer::parse_number` (src/de.rs): a `.` enters the fractional
phase; otherwise a positive literal is `U64`, and a negative one is negated
with `i64` wrapping semantics — if the wrapped negation is positive (the
magnitude exceeded `2^63`) fall back to `F64(-(significand as f64))`,
else keep `I64`. -/
def parse_number (pos : Bool) (sig : Nat) (l : List Nat) :
    Except PErr (DNum × List Nat) :=
  match l with
  | 46 :: _ => (parse_decimal pos sig 0 l).map (fun (f, r) => (.F64 f, r))
  | _ =>
    if pos then .ok (.U64 sig, l)
    else
      let neg := wrapNegI64 (castI64 sig)
      if 0 < neg then .ok (.F64 ⟨true, sig, 0⟩, l)
      else .ok (.I64 neg, l)

/-- The digit-accumulation loop of `Deserializer::parse_integer`
(src/de.rs): accumulate while `overflow!` stays false; on overflow the
current digit is dropped and `parse_long_integer` continues with exponent
1. -/
def parse_integer_loop (pos : Bool) (res : Nat) :
    List Nat → Except PErr (DNum × List Nat)
  | [] => parse_number pos res []
  | c :: r =>
    if is_digit c then
      if overflow_check res (c - 48) then
        (parse_long_integer pos res 1 r).map (fun (f, r') => (.F64 f, r'))
      else parse_integer_loop pos (res * 10 + (c - 48)) r
    else parse_number pos res (c :: r)

/-- Models `Deserializer::parse_integer` (src/de.rs): a leading `0` admits no
second digit; a leading `1..9` enters the accumulation loop; anything else
(including end of input, whose `next_char_or_null` is the NUL byte) is
`InvalidNumber`. -/
def parse_integer (pos : Bool) : List Nat → Except PErr (DNum × List Nat)
  | 48 :: r =>
    match r with
    | c :: _ =>
      if is_digit c then .error (.code .InvalidNumber)
      else parse_number pos 0 r
    | [] => parse_number pos 0 []
  | c :: r =>
    if 49 ≤ c ∧ c ≤ 57 then parse_integer_loop pos (c - 48) r
    else .error (.code .InvalidNumber)
  | [] => .error (.code .InvalidNumber)

/-- Decimal value of a run of ASCII digits appended to an accumulator
(used to state the theorems about the number algorithm). -/
def extendVal (res : Nat) (l : List Nat) : Nat :=
  l.foldl (fun a c => a * 10 + (c - 48)) res

/-- The decimal text of `u64::MAX`, `18446744073709551615`, as bytes. -/
def maxText : List Nat :=
  [49, 56, 52, 52, 54, 55, 52, 52, 48, 55, 51, 55, 48, 57, 53, 53, 49, 54, 49, 53]

/-- Input of 129 nested unclosed parens, as bytes. -/
def parens129 : List Nat := List.replicate 129 40

/-- The digits of `10 ^ 309`: a `1` followed by 309 zeros. -/
def bigLit : List Nat := 49 :: List.replicate 309 48

/-! ## The deserializer (src/de.rs) -/

/-- The mutable state of `Deserializer<R>`: the remaining input bytes and
the `remaining_depth : u8` counter (initialised to 128 by
`Deserializer::new`).  The scratch string buffer has no observable effect
and is omitted. -/
structure DState where
  rem : List Nat
  depth : Nat
  deriving Repr

/-- Models `Deserializer::parse_ident` (src/de.rs): each expected byte must be
delivered by `next_char`, else `ExpectedSomeIdent` (end of input included,
since `None != Some(c)`). -/
def parse_ident : List Nat → DState → Except PErr DState
  | [], s => .ok s
  | c :: cs, s =>
    match s.rem with
    | c' :: r => if c' = c then parse_ident cs ⟨r, s.depth⟩
                 else .error (.code .ExpectedSomeIdent)
    | [] => .error (.code .ExpectedSomeIdent)

/-- Models `Deserializer::end_seq` (src/de.rs): skip whitespace, then require and
consume `)`; a different byte is `TrailingCharacters`, end of input is
`EofWhileParsingList`. -/
def end_seq (s : DState) : Except PErr DState :=
  match skip_ws s.rem with
  | 41 :: r => .ok ⟨r, s.depth⟩
  | _ :: _ => .error (.code .TrailingCharacters)
  | [] => .error (.code .EofWhileParsingList)

/-- Modelled from the spec: the visitor of `Sexp`'s `Deserialize` impl
(`sexp/de.rs` is not in the source snapshot).  It maps the primitive
events the decoder dispatches into the value tree: `visit_bool` builds
`Boolean`, `visit_u64`/`visit_i64` build `Number` through the `From`
conversions of src/number.rs, `visit_f64` builds a (finite) `Float`. -/
def visit_num : DNum → Sexp
  | .U64 n => .number (Number.from_u64 n)
  | .I64 i => .number (Number.from_i64 i)
  | .F64 f => .number (.Float f)

mutual

/-- Models `Deserializer::parse_value` (src/de.rs), specialised to the
`Sexp`-building visitor; `fuel` is an artificial recursion budget (the
entry points pass `2 * |input| + 8`, which the recursion never exhausts).
Dispatch on the first non-whitespace byte: `#` begins a literal (`#t`,
`#f`, `#nil` — the latter visited as `visit_bool(true)`), `-` or a digit
begins a number, `"` a string, `(` a list (decrementing the `u8` depth
counter, erroring at 0, and restoring it after the element loop), a letter
a bare symbol via `Atom::from_str`; anything else is `ExpectedSomeValue`. -/
def parse_value : Nat → DState → Except PErr (Sexp × DState)
  | 0, _ => .error .fuelOut
  | fuel + 1, s =>
    match skip_ws s.rem with
    | [] => .error (.code .EofWhileParsingValue)
    | peek :: rest =>
      if peek = 35 then
        match rest with
        | 116 :: r => .ok (.boolean true, ⟨r, s.depth⟩)
        | 102 :: r => .ok (.boolean false, ⟨r, s.depth⟩)
        | 110 :: r =>
          (parse_ident [105, 108] ⟨r, s.depth⟩).map
            (fun s' => (.boolean true, s'))
        | _ :: _ => .error (.code .ExpectedSomeIdent)
        | [] => .error (.code .EofWhileParsingValue)
      else if peek = 45 then
        (parse_integer false rest).map
          (fun (n, r) => (visit_num n, ⟨r, s.depth⟩))
      else if is_digit peek then
        (parse_integer true (peek :: rest)).map
          (fun (n, r) => (visit_num n, ⟨r, s.depth⟩))
      else if peek = 34 then
        (parse_str rest).map
          (fun (str, r) => (.atom (.string str), ⟨r, s.depth⟩))
      else if peek = 40 then
        let d1 := (s.depth + 255) % 256
        if d1 = 0 then .error (.code .RecursionLimitExceeded)
        else
          match seq_elements fuel true [] ⟨rest, d1⟩ with
          | .error e => .error e
          | .ok (elems, s1) =>
            let s2 : DState := ⟨skip_ws s1.rem, (s1.depth + 1) % 256⟩
            (end_seq s2).map (fun s3 => (.list elems, s3))
      else if is_alpha peek then
        let (sym, r) := parse_symbol (peek :: rest)
        .ok (.atom (Atom.from_str sym), ⟨r, s.depth⟩)
      else .error (.code .ExpectedSomeValue)

/-- Models `SeqAccess::next_element_seed` (src/de.rs), first half: peek at the
element boundary.  A `)` ends the sequence; a single space is consumed; any
other byte has the whitespace skipped but is only legal before the first
element (`ExpectedListEltOrEnd` otherwise); end of input is
`EofWhileParsingList`.  Then `seq_cont` performs the `peek()?.unwrap()`
step. -/
def seq_elements : Nat → Bool → List Sexp → DState → Except PErr (List Sexp × DState)
  | 0, _, _, _ => .error .fuelOut
  | fuel + 1, first, acc, s =>
    match s.rem with
    | [] => .error (.code .EofWhileParsingList)
    | c :: r =>
      if c = 41 then .ok (acc.reverse, s)
      else if c = 32 then seq_cont fuel first acc ⟨r, s.depth⟩
      else
        if first then seq_cont fuel false acc ⟨skip_ws s.rem, s.depth⟩
        else .error (.code .ExpectedListEltOrEnd)

/-- Models `SeqAccess::next_element_seed` (src/de.rs), second half: the source
runs `self.de.peek()?.unwrap()` — on exhausted input this is a Rust panic
(`crash`).  Otherwise `)` ends the sequence and anything else parses one
more element. -/
def seq_cont : Nat → Bool → List Sexp → DState → Except PErr (List Sexp × DState)
  | 0, _, _, _ => .error .fuelOut
  | fuel + 1, first, acc, s =>
    match s.rem with
    | [] => .error .crash
    | c :: _ =>
      if c = 41 then .ok (acc.reverse, s)
      else
        match parse_value fuel s with
        | .error e => .error e
        | .ok (v, s') => seq_elements fuel first (v :: acc) s'

end

/-- Models `<&mut Deserializer as Deserializer>::deserialize_option` (src/de.rs):
a leading `n` (after whitespace) is consumed and must be followed by `il`,
yielding `None`; any other input is deserialized as `Some` through the
general value path. -/
def deserialize_option (fuel : Nat) (s : DState) :
    Except PErr (Option Sexp × DState) :=
  match skip_ws s.rem with
  | 110 :: r =>
    (parse_ident [105, 108] ⟨r, s.depth⟩).map (fun s' => (none, s'))
  | l =>
    (parse_value fuel ⟨l, s.depth⟩).map (fun (v, s') => (some v, s'))

/-- Canonical fuel budget for an input: four steps per byte plus slack; the
mutual recursion consumes at least one input byte for every three nested
calls, so the budget is never exhausted. -/
def fuelFor (input : List Nat) : Nat := 4 * input.length + 16

/-- Models `Deserializer::end` (src/de.rs): after a value, only trailing
whitespace may remain, else `TrailingCharacters`. -/
def end_input (v : Sexp) (s : DState) : Except PErr Sexp :=
  match skip_ws s.rem with
  | _ :: _ => .error (.code .TrailingCharacters)
  | [] => .ok v

/-- Models `from_trait`/`from_str`/`from_slice` (src/de.rs) at the generic `Sexp`
target: build a deserializer with `remaining_depth = 128`, parse one value,
then require the rest to be whitespace. -/
def from_str_sexp (input : List Nat) : Except PErr Sexp :=
  match parse_value (fuelFor input) ⟨input, 128⟩ with
  | .error e => .error e
  | .ok (v, s') => end_input v s'

/-! ## Keyed-record (struct) decoding (src/de.rs `deserialize_struct`,
`MapAccess`, `MapKey`, `MapSeqValue`) -/

/-- Models `MapKey::deserialize_any` (src/de.rs): after the entry's `(` has been
consumed, a key is either a quoted string or a bare symbol; anything else
is `ExpectedSomeIdent`, end of input is `EofWhileParsingAlist`. -/
def map_key (s : DState) : Except PErr (List Nat × DState) :=
  match skip_ws s.rem with
  | [] => .error (.code .EofWhileParsingAlist)
  | c :: r =>
    if c = 34 then (parse_str r).map (fun (k, r') => (k, ⟨r', s.depth⟩))
    else if is_alpha c then
      let (sym, r') := parse_symbol (c :: r)
      .ok (sym, ⟨r', s.depth⟩)
    else .error (.code .ExpectedSomeIdent)

/-- Models `MapAccess::next_key_seed` / `next_value_seed` (src/de.rs), looped by a
struct visitor collecting its fields (the derive-generated visitor is
abstracted to collecting key/value pairs; the field-to-slot matching has no
effect on the error behaviour settled here).  Each entry opens with `(`,
reads a key, then either a `.` and exactly one value, or the remaining
tokens as a sequence value (`MapSeqValue`); the entry must close with `)`
(`TrailingCharacters` otherwise). -/
def struct_entries (fuel : Nat) (acc : List (List Nat × Sexp)) (s : DState) :
    Except PErr (List (List Nat × Sexp) × DState) :=
  match fuel with
  | 0 => .error .fuelOut
  | fuel + 1 =>
    match skip_ws s.rem with
    | [] => .error (.code .EofWhileParsingAlist)
    | 41 :: r => .ok (acc.reverse, ⟨41 :: r, s.depth⟩)
    | 40 :: r =>
      match map_key ⟨r, s.depth⟩ with
      | .error e => .error e
      | .ok (k, s1) =>
        let next_value : Except PErr (Sexp × DState) :=
          match skip_ws s1.rem with
          | [] => .error (.code .EofWhileParsingAlist)
          | 46 :: r2 => parse_value fuel ⟨r2, s1.depth⟩
          | l2 =>
            (seq_elements fuel true [] ⟨l2, s1.depth⟩).map
              (fun (elems, s2) => (.list elems, s2))
        match next_value with
        | .error e => .error e
        | .ok (v, s2) =>
          match skip_ws s2.rem with
          | 41 :: r3 => struct_entries fuel ((k, v) :: acc) ⟨r3, s2.depth⟩
          | _ :: _ => .error (.code .TrailingCharacters)
          | [] => .error (.code .EofWhileParsingAlist)
    | _ :: _ => .error (.code .ExpectedList)

/-- Models `<&mut Deserializer as Deserializer>::deserialize_struct` (src/de.rs):
requires a `(` (note: without touching `remaining_depth`), visits the map
entries, then `end_seq`.  Anything but `(` is `ExpectedList`. -/
def deserialize_struct (fuel : Nat) (s : DState) :
    Except PErr (List (List Nat × Sexp) × DState) :=
  match skip_ws s.rem with
  | [] => .error (.code .EofWhileParsingValue)
  | 40 :: r =>
    match struct_entries fuel [] ⟨r, s.depth⟩ with
    | .error e => .error e
    | .ok (entries, s1) => (end_seq s1).map (fun s2 => (entries, s2))
  | _ :: _ => .error (.code .ExpectedList)

/-- Models `from_str` at a keyed-record (derived struct) target. -/
def from_str_struct (input : List Nat) : Except PErr (List (List Nat × Sexp)) :=
  match deserialize_struct (fuelFor input) ⟨input, 128⟩ with
  | .error e => .error e
  | .ok (entries, s') =>
    match skip_ws s'.rem with
    | _ :: _ => .error (.code .TrailingCharacters)
    | [] => .ok entries

/-- Models `from_str` at an `Option<Sexp>` target (`deserialize_option` followed
by `Deserializer::end`). -/
def from_str_option (input : List Nat) : Except PErr (Option Sexp) :=
  match deserialize_option (fuelFor input) ⟨input, 128⟩ with
  | .error e => .error e
  | .ok (v, s') =>
    match skip_ws s'.rem with
    | _ :: _ => .error (.code .TrailingCharacters)
    | [] => .ok v

/-! ## The streaming deserializer (src/de.rs `StreamDeserializer`) -/

/-- Models `StreamDeserializer` state: the deserializer plus the cached `offset`
returned by `byte_offset()`.  The source's `read.byte_offset()` counts
consumed bytes; with the cursor modelled as the remaining-byte list this is
`total - rem.length`, so the original input length is carried along. -/
structure StreamState where
  total : Nat
  de : DState
  offset : Nat
  deriving Repr

/-- Models `Deserializer::into_iter` on a fresh deserializer over `input`. -/
def mkStream (input : List Nat) : StreamState :=
  ⟨input.length, ⟨input, 128⟩, 0⟩

/-- Models `StreamDeserializer::byte_offset` (src/de.rs). -/
def byte_offset (st : StreamState) : Nat := st.offset

/-- Models `<StreamDeserializer as Iterator>::next` (src/de.rs): skip whitespace;
at end of input update the offset and yield nothing; on `(` record the
offset, deserialize one value and, on success, advance the offset to the
end of the value; any other byte yields `ExpectedList` without moving the
offset. -/
def stream_next (st : StreamState) : Option (Except PErr Sexp) × StreamState :=
  match skip_ws st.de.rem with
  | [] => (none, ⟨st.total, ⟨[], st.de.depth⟩, st.total⟩)
  | 40 :: r =>
    let off0 := st.total - (40 :: r).length
    match parse_value (fuelFor (40 :: r)) ⟨40 :: r, st.de.depth⟩ with
    | .ok (v, de2) => (some (.ok v), ⟨st.total, de2, st.total - de2.rem.length⟩)
    | .error e => (some (.error e), ⟨st.total, ⟨40 :: r, st.de.depth⟩, off0⟩)
  | c :: r => (some (.error (.code .ExpectedList)), ⟨st.total, ⟨c :: r, st.de.depth⟩, st.offset⟩)

/-- The first `n` results of repeatedly calling `stream_next`. -/
def stream_take : Nat → StreamState → List (Option (Except PErr Sexp))
  | 0, _ => []
  | n + 1, st =>
    (stream_next st).1 :: stream_take n (stream_next st).2

/-! ## The serializer (src/ser.rs) -/

/-- The serde data model restricted to the events exercised by the claims:
the value forms a `Serialize` impl feeds to `Serializer` of src/ser.rs.
Keyed aggregates (maps and structs — a struct serializes through the same
`SerializeMap`/`Compound` path with string keys) are entry lists. -/
inductive SerValue
  | bool (b : Bool)
  | i64 (n : Int)
  | u64 (n : Nat)
  | f64 (f : Fl)
  | str (s : List Nat)
  | seq (xs : List SerValue)
  | map (entries : List (SerValue × SerValue))

/-- Formatter strategy state: `CompactFormatter` is stateless;
`PrettyFormatter` carries the indent unit, the current indent depth and
the `has_value` flag (src/ser.rs). -/
inductive Fmt
  | compact
  | pretty (indent : List Nat) (current_indent : Nat) (has_value : Bool)
  deriving Repr

/-- Decimal digits of a natural number (the `itoa` rendering). -/
def itoa_nat (n : Nat) : List Nat := (Nat.toDigits 10 n).map Char.toNat

/-- Models `itoa` rendering of a signed integer. -/
def itoa_int (i : Int) : List Nat :=
  if i < 0 then 45 :: itoa_nat (-i).toNat else itoa_nat i.toNat

/-- Modelled from the spec: a stand-in for the `dtoa` shortest
round-tripping float rendering; no claim observes the rendered float text,
only that rendering floats as values succeeds. -/
def dtoa_render (f : Fl) : List Nat :=
  (if f.neg then [45] else []) ++ itoa_nat f.sig ++ 101 :: itoa_int f.exp

/-- Models `indent` of src/ser.rs: the indent unit repeated `n` times. -/
def indent_bytes (unit : List Nat) (n : Nat) : List Nat :=
  (List.replicate n unit).flatten

/-- The 256-entry `ESCAPE` table of src/ser.rs collapsed to its action on
one byte: the named two-character escapes for backspace/tab/newline/form
feed/carriage return/quote/backslash, `\u00XX` for the other control
bytes, and everything else verbatim. -/
def escape_byte (b : Nat) : List Nat :=
  if b = 8 then [92, 98]
  else if b = 9 then [92, 116]
  else if b = 10 then [92, 110]
  else if b = 12 then [92, 102]
  else if b = 13 then [92, 114]
  else if b = 34 then [92, 34]
  else if b = 92 then [92, 92]
  else if b < 32 then
    [92, 117, 48, 48, hexDigit (b / 16), hexDigit (b % 16)]
  else [b]
where
  /-- Lower-case hex digit byte. -/
  hexDigit (n : Nat) : Nat := if n < 10 then 48 + n else 87 + n

/-- Models `format_escaped_str_contents` (src/ser.rs). -/
def escape_string (s : List Nat) : List Nat := s.flatMap escape_byte

/-- Models `Formatter::write_null`: the fixed `#nil` token (src/ser.rs). -/
def write_null : List Nat := [35, 110, 105, 108]

/-- Models `Formatter::write_bool`: `#t` / `#f` (src/ser.rs). -/
def write_bool (b : Bool) : List Nat :=
  if b then [35, 116] else [35, 102]

/-- Models `Formatter::begin_array` (src/ser.rs): `(` for both formatters; the
pretty formatter additionally bumps the indent and clears `has_value`. -/
def fmt_begin_array : Fmt → List Nat × Fmt
  | .compact => ([40], .compact)
  | .pretty u ci _ => ([40], .pretty u (ci + 1) false)

/-- Models `Formatter::end_array` (src/ser.rs). -/
def fmt_end_array : Fmt → List Nat × Fmt
  | .compact => ([41], .compact)
  | .pretty u ci hv =>
    (if hv then 10 :: indent_bytes u (ci - 1) ++ [41] else [41],
     .pretty u (ci - 1) hv)

/-- Models `Formatter::begin_array_value` (src/ser.rs): compact separates with a
single space; pretty always breaks the line and indents. -/
def fmt_begin_array_value (first : Bool) : Fmt → List Nat × Fmt
  | .compact => (if first then [] else [32], .compact)
  | .pretty u ci hv => (10 :: indent_bytes u ci, .pretty u ci hv)

/-- Models `Formatter::end_array_value` (src/ser.rs): pretty records that the
aggregate holds a value. -/
def fmt_end_array_value : Fmt → List Nat × Fmt
  | .compact => ([], .compact)
  | .pretty u ci _ => ([], .pretty u ci true)

/-- Models `Formatter::begin_object` (src/ser.rs): `(` for the base formatter but
`{` for the pretty formatter (the delimiter inconsistency flagged by the
spec). -/
def fmt_begin_object : Fmt → List Nat × Fmt
  | .compact => ([40], .compact)
  | .pretty u ci _ => ([123], .pretty u (ci + 1) false)

/-- Models `Formatter::end_object` (src/ser.rs). -/
def fmt_end_object : Fmt → List Nat × Fmt
  | .compact => ([41], .compact)
  | .pretty u ci hv =>
    (if hv then 10 :: indent_bytes u (ci - 1) ++ [125] else [125],
     .pretty u (ci - 1) hv)

/-- Models `Formatter::begin_object_key` (src/ser.rs). -/
def fmt_begin_object_key (first : Bool) : Fmt → List Nat × Fmt
  | .compact => (if first then [] else [32], .compact)
  | .pretty u ci hv =>
    ((if first then [10] else [44, 10]) ++ indent_bytes u ci, .pretty u ci hv)

/-- Models `Formatter::end_object_key` (src/ser.rs): nothing, for both
formatters. -/
def fmt_end_object_key : Fmt → List Nat × Fmt
  | f => ([], f)

/-- Models `Formatter::begin_object_value` (src/ser.rs): the base formatter
writes the pair dot, the pretty formatter `:` and a space. -/
def fmt_begin_object_value : Fmt → List Nat × Fmt
  | .compact => ([46], .compact)
  | .pretty u ci hv => ([58, 32], .pretty u ci hv)

/-- Models `Formatter::end_object_value` (src/ser.rs). -/
def fmt_end_object_value : Fmt → List Nat × Fmt
  | .compact => ([], .compact)
  | .pretty u ci _ => ([], .pretty u ci true)

/-- Models `format_escaped_str` (src/ser.rs): quote, escaped contents, quote
(`begin_string`/`end_string` are not overridden by either formatter). -/
def serialize_str_bytes (s : List Nat) : List Nat :=
  34 :: escape_string s ++ [34]

/-- Models `MapKeySerializer` (src/ser.rs): map keys go through a restricted
serializer.  Strings pass through; the integer widths render as quoted
decimal text; booleans, floats, sequences and aggregates are rejected with
`key_must_be_a_string()`, i.e. `Error::syntax(ErrorCode::KeyMustBeAString,
0, 0)`. -/
def serialize_key (f : Fmt) : SerValue → Except ErrorCode (List Nat × Fmt)
  | .str s => .ok (serialize_str_bytes s, f)
  | .i64 n => .ok (34 :: itoa_int n ++ [34], f)
  | .u64 n => .ok (34 :: itoa_nat n ++ [34], f)
  | .bool _ => .error .KeyMustBeAString
  | .f64 _ => .error .KeyMustBeAString
  | .seq _ => .error .KeyMustBeAString
  | .map _ => .error .KeyMustBeAString

mutual

/-- Models `Serializer::serialize_*` (src/ser.rs) driven over a `SerValue`: the
writer is a byte vector (whose writes cannot fail, so `Error::Io` never
arises), and the formatter state is threaded through.  Non-finite floats
cannot be represented in `Fl`, so `serialize_f64`'s redirect of non-finite
values to `write_null` has no model counterpart. -/
def serialize (f : Fmt) : SerValue → Except ErrorCode (List Nat × Fmt)
  | .bool b => .ok (write_bool b, f)
  | .i64 n => .ok (itoa_int n, f)
  | .u64 n => .ok (itoa_nat n, f)
  | .f64 x => .ok (dtoa_render x, f)
  | .str s => .ok (serialize_str_bytes s, f)
  | .seq xs =>
    match xs with
    | [] =>
      let (o1, f1) := fmt_begin_array f
      let (o2, f2) := fmt_end_array f1
      .ok (o1 ++ o2, f2)
    | _ :: _ =>
      let (o1, f1) := fmt_begin_array f
      match serialize_elems f1 true xs with
      | .error e => .error e
      | .ok (o2, f2) =>
        let (o3, f3) := fmt_end_array f2
        .ok (o1 ++ o2 ++ o3, f3)
  | .map entries =>
    match entries with
    | [] =>
      let (o1, f1) := fmt_begin_object f
      let (o2, f2) := fmt_end_object f1
      .ok (o1 ++ o2, f2)
    | _ :: _ =>
      let (o1, f1) := fmt_begin_object f
      match serialize_entries f1 true entries with
      | .error e => .error e
      | .ok (o2, f2) =>
        let (o3, f3) := fmt_end_object f2
        .ok (o1 ++ o2 ++ o3, f3)

/-- Models `SerializeSeq::serialize_element` (src/ser.rs) folded over the
elements. -/
def serialize_elems (f : Fmt) (first : Bool) :
    List SerValue → Except ErrorCode (List Nat × Fmt)
  | [] => .ok ([], f)
  | x :: xs =>
    let (o1, f1) := fmt_begin_array_value first f
    match serialize f1 x with
    | .error e => .error e
    | .ok (o2, f2) =>
      let (o3, f3) := fmt_end_array_value f2
      match serialize_elems f3 false xs with
      | .error e => .error e
      | .ok (o4, f4) => .ok (o1 ++ o2 ++ o3 ++ o4, f4)

/-- Models `SerializeMap::serialize_key` / `serialize_value` (src/ser.rs) folded
over the entries. -/
def serialize_entries (f : Fmt) (first : Bool) :
    List (SerValue × SerValue) → Except ErrorCode (List Nat × Fmt)
  | [] => .ok ([], f)
  | (k, v) :: rest =>
    let (o1, f1) := fmt_begin_object_key first f
    match serialize_key f1 k with
    | .error e => .error e
    | .ok (o2, f2) =>
      let (o3, f3) := fmt_end_object_key f2
      let (o4, f4) := fmt_begin_object_value f3
      match serialize f4 v with
      | .error e => .error e
      | .ok (o5, f5) =>
        let (o6, f6) := fmt_end_object_value f5
        match serialize_entries f6 false rest with
        | .error e => .error e
        | .ok (o7, f7) => .ok (o1 ++ o2 ++ o3 ++ o4 ++ o5 ++ o6 ++ o7, f7)

end

/-- Models `to_vec`/`to_string` with an explicit formatter (src/ser.rs). -/
def to_string_fmt (f : Fmt) (v : SerValue) : Except ErrorCode (List Nat) :=
  (serialize f v).map (fun p => p.1)

/-- Models `to_string` (src/ser.rs): the compact formatter. -/
def to_string_compact (v : SerValue) : Except ErrorCode (List Nat) :=
  to_string_fmt .compact v

/-- Models `to_string_pretty` (src/ser.rs): `PrettyFormatter::new()`, two-space
indent. -/
def to_string_pretty (v : SerValue) : Except ErrorCode (List Nat) :=
  to_string_fmt (.pretty [32, 32] 0 false) v

/-! ## Basic lemmas about the reader primitives -/

theorem skip_ws_suffix (l : List Nat) : skip_ws l <:+ l := by
  induction l with
  | nil => simp [skip_ws]
  | cons c r ih =>
    simp only [skip_ws]
    split
    · exact ih.trans (List.suffix_cons c r)
    · exact List.suffix_refl _

theorem skip_ws_nil_iff (l : List Nat) :
    skip_ws l = [] ↔ ∀ c ∈ l, is_ws c = true := by
  induction l with
  | nil => simp [skip_ws]
  | cons c r ih =>
    simp only [skip_ws]
    split <;> rename_i h
    · simpa [h] using ih
    · simp [h]

theorem skip_ws_of_head (c : Nat) (r : List Nat) (h : is_ws c = false) :
    skip_ws (c :: r) = c :: r := by
  simp [skip_ws, h]

theorem suffix_drop_length {l' l : List Nat} (h : l' <:+ l) :
    l.drop (l.length - l'.length) = l' := by
  obtain ⟨t, rfl⟩ := h
  simp [List.drop_left]

theorem parse_ident_suffix (ident : List Nat) (s s' : DState)
    (h : parse_ident ident s = .ok s') : s'.rem <:+ s.rem ∧ s'.depth = s.depth := by
  induction ident generalizing s with
  | nil =>
    simp only [parse_ident] at h
    cases h
    exact ⟨List.suffix_refl _, rfl⟩
  | cons c cs ih =>
    simp only [parse_ident] at h
    match hrem : s.rem with
    | [] => rw [hrem] at h; exact absurd h (by simp)
    | c' :: r =>
      rw [hrem] at h
      by_cases hc : c' = c
      · simp only [hc, if_pos rfl] at h
        obtain ⟨hsuf, hdep⟩ := ih _ h
        exact ⟨hsuf.trans (List.suffix_cons c' r), hdep⟩
      · simp [hc] at h

theorem parse_symbol_suffix (l : List Nat) : (parse_symbol l).2 <:+ l := by
  simpa [parse_symbol] using List.dropWhile_suffix is_symbol_byte

theorem eat_digits_suffix (l : List Nat) : eat_digits l <:+ l := by
  induction l with
  | nil => simp [eat_digits]
  | cons c r ih =>
    simp only [eat_digits]
    split
    · exact ih.trans (List.suffix_cons c r)
    · exact List.suffix_refl _

theorem parse_str_loop_suffix_aux :
    ∀ (n : Nat) (l acc out r : List Nat), l.length ≤ n →
      parse_str_loop acc l = .ok (out, r) → r <:+ l := by
  intro n
  induction n with
  | zero =>
    intro l acc out r hlen h
    rw [List.length_eq_zero.mp (Nat.le_zero.mp hlen)] at h
    simp [parse_str_loop] at h
  | succ n ih =>
    intro l acc out r hlen h
    rw [parse_str_loop.eq_def] at h
    split at h
    · exact absurd h (by simp)
    · rename_i r0
      obtain ⟨-, rfl⟩ : acc.reverse = out ∧ r0 = r := by
        simpa using h
      exact ⟨[34], rfl⟩
    · rename_i r0
      split at h
      · exact absurd h (by simp)
      · exact ((ih _ _ _ _ (by simp at hlen ⊢; omega) h).trans ⟨[92, 34], rfl⟩)
      · exact ((ih _ _ _ _ (by simp at hlen ⊢; omega) h).trans ⟨[92, 92], rfl⟩)
      · exact ((ih _ _ _ _ (by simp at hlen ⊢; omega) h).trans ⟨[92, 47], rfl⟩)
      · exact ((ih _ _ _ _ (by simp at hlen ⊢; omega) h).trans ⟨[92, 98], rfl⟩)
      · exact ((ih _ _ _ _ (by simp at hlen ⊢; omega) h).trans ⟨[92, 102], rfl⟩)
      · exact ((ih _ _ _ _ (by simp at hlen ⊢; omega) h).trans ⟨[92, 110], rfl⟩)
      · exact ((ih _ _ _ _ (by simp at hlen ⊢; omega) h).trans ⟨[92, 114], rfl⟩)
      · exact ((ih _ _ _ _ (by simp at hlen ⊢; omega) h).trans ⟨[92, 116], rfl⟩)
      · split at h
        · rename_i h1 h2 h3 h4 r6
          split at h
          · exact ((ih _ _ _ _ (by simp at hlen ⊢; omega) h).trans
              ⟨[92, 117, h1, h2, h3, h4], rfl⟩)
          · exact absurd h (by simp)
        · exact absurd h (by simp)
      · exact absurd h (by simp)
    · rename_i c r0 hne1 hne2
      exact ((ih _ _ _ _ (by simp at hlen ⊢; omega) h).trans ⟨[c], rfl⟩)

theorem parse_str_suffix (l out r : List Nat)
    (h : parse_str l = .ok (out, r)) : r <:+ l :=
  parse_str_loop_suffix_aux l.length l [] out r (Nat.le_refl _) h

/-! ## Suffix lemmas for the number chain -/

theorem parse_decimal_loop_suffix (sig : Nat) (exp : Int) (one : Bool)
    (l : List Nat) : (parse_decimal_loop sig exp one l).2.2.2 <:+ l := by
  induction l generalizing sig exp one with
  | nil => simp [parse_decimal_loop]
  | cons c r ih =>
    simp only [parse_decimal_loop]
    split
    · split
      · exact (eat_digits_suffix r).trans (List.suffix_cons c r)
      · exact (ih _ _ _).trans (List.suffix_cons c r)
    · exact List.suffix_refl _

theorem parse_decimal_suffix (pos : Bool) (sig : Nat) (exp : Int)
    (l : List Nat) (f : Fl) (r : List Nat)
    (h : parse_decimal pos sig exp l = .ok (f, r)) : r <:+ l := by
  simp only [parse_decimal] at h
  split at h
  · have hr : r = (parse_decimal_loop sig exp false l.tail).2.2.2 := by
      rcases hfp : f64_from_parts pos (parse_decimal_loop sig exp false l.tail).1
          (parse_decimal_loop sig exp false l.tail).2.1 with e | f'
      · rw [hfp] at h; simp [Except.map] at h
      · rw [hfp] at h; simp [Except.map] at h; exact h.2.symm
    rw [hr]
    exact (parse_decimal_loop_suffix _ _ _ _).trans (List.tail_suffix l)
  · exact absurd h (by simp)

theorem parse_long_integer_suffix (pos : Bool) (sig : Nat) (exp : Int)
    (l : List Nat) (f : Fl) (r : List Nat)
    (h : parse_long_integer pos sig exp l = .ok (f, r)) : r <:+ l := by
  induction l generalizing sig exp with
  | nil =>
    simp only [parse_long_integer] at h
    rcases hfp : f64_from_parts pos sig exp with e | f'
    · rw [hfp] at h; simp [Except.map] at h
    · rw [hfp] at h; simp [Except.map] at h
      rw [h.2]
  | cons c rest ih =>
    simp only [parse_long_integer] at h
    split at h
    · exact (ih _ _ h).trans (List.suffix_cons c rest)
    · split at h
      · exact parse_decimal_suffix _ _ _ _ _ _ h
      · rcases hfp : f64_from_parts pos sig exp with e | f'
        · rw [hfp] at h; simp [Except.map] at h
        · rw [hfp] at h; simp [Except.map] at h
          rw [h.2]

theorem parse_number_suffix (pos : Bool) (sig : Nat) (l : List Nat)
    (n : DNum) (r : List Nat)
    (h : parse_number pos sig l = .ok (n, r)) : r <:+ l := by
  rw [parse_number.eq_def] at h
  split at h
  · rename_i rest
    rcases hpd : parse_decimal pos sig 0 (46 :: rest) with e | ⟨f, r'⟩
    · rw [hpd] at h; simp [Except.map] at h
    · rw [hpd] at h
      simp [Except.map] at h
      rw [← h.2]
      exact parse_decimal_suffix _ _ _ _ _ _ hpd
  · split at h
    · cases h; exact List.suffix_refl _
    · dsimp only at h
      split at h <;> (cases h; exact List.suffix_refl _)

theorem parse_integer_loop_suffix (pos : Bool) (res : Nat) (l : List Nat)
    (n : DNum) (r : List Nat)
    (h : parse_integer_loop pos res l = .ok (n, r)) : r <:+ l := by
  induction l generalizing res with
  | nil => exact parse_number_suffix _ _ _ _ _ h
  | cons c rest ih =>
    simp only [parse_integer_loop] at h
    split at h
    · split at h
      · rcases hpl : parse_long_integer pos res 1 rest with e | ⟨f, r'⟩
        · rw [hpl] at h; simp [Except.map] at h
        · rw [hpl] at h
          simp [Except.map] at h
          rw [← h.2]
          exact (parse_long_integer_suffix _ _ _ _ _ _ hpl).trans
            (List.suffix_cons c rest)
      · exact (ih _ h).trans (List.suffix_cons c rest)
    · exact parse_number_suffix _ _ _ _ _ h

theorem parse_integer_suffix (pos : Bool) (l : List Nat)
    (n : DNum) (r : List Nat)
    (h : parse_integer pos l = .ok (n, r)) : r <:+ l := by
  rw [parse_integer.eq_def] at h
  split at h
  · rename_i r0
    split at h
    · rename_i c rest
      split at h
      · exact absurd h (by simp)
      · exact (parse_number_suffix _ _ _ _ _ h).trans (List.suffix_cons 48 _)
    · exact (parse_number_suffix _ _ _ _ _ h).trans (List.suffix_cons 48 _)
  · rename_i c r0 hne
    split at h
    · exact (parse_integer_loop_suffix _ _ _ _ _ h).trans
        (List.suffix_cons _ _)
    · exact absurd h (by simp)
  · exact absurd h (by simp)

/-! ## State lemmas for the value parser: on success the remaining input is
a suffix of the original and `remaining_depth` is restored. -/

theorem end_seq_inv (s s' : DState) (h : end_seq s = .ok s') :
    s'.rem <:+ s.rem ∧ s'.depth = s.depth := by
  simp only [end_seq] at h
  split at h <;> rename_i heq
  · rename_i r0
    obtain rfl : s' = ⟨r0, s.depth⟩ := by simpa using h.symm
    refine ⟨?_, rfl⟩
    have h1 : (41 : Nat) :: r0 <:+ s.rem := heq ▸ skip_ws_suffix s.rem
    exact (List.suffix_cons 41 r0).trans h1
  · exact absurd h (by simp)
  · exact absurd h (by simp)

theorem depth_restore (d : Nat) (hd : d < 256) :
    ((d + 255) % 256 + 1) % 256 = d := by
  omega

theorem parse_value_inv :
    ∀ fuel : Nat,
      (∀ s v s', parse_value fuel s = .ok (v, s') →
        s'.rem <:+ s.rem ∧ (s.depth < 256 → s'.depth = s.depth)) ∧
      (∀ first acc s es s', seq_elements fuel first acc s = .ok (es, s') →
        s'.rem <:+ s.rem ∧ (s.depth < 256 → s'.depth = s.depth)) ∧
      (∀ first acc s es s', seq_cont fuel first acc s = .ok (es, s') →
        s'.rem <:+ s.rem ∧ (s.depth < 256 → s'.depth = s.depth)) := by
  intro fuel
  induction fuel with
  | zero =>
    refine ⟨?_, ?_, ?_⟩ <;> intros <;> simp_all [parse_value, seq_elements, seq_cont]
  | succ fuel ih =>
    obtain ⟨ihv, ihe, ihc⟩ := ih
    refine ⟨?_, ?_, ?_⟩
    · -- parse_value
      intro s v s' h
      simp only [parse_value] at h
      split at h
      · exact absurd h (by simp)
      · rename_i peek rest heq
        have hsw : peek :: rest <:+ s.rem := heq ▸ skip_ws_suffix s.rem
        have hrest : rest <:+ s.rem := (List.suffix_cons peek rest).trans hsw
        split at h
        · -- '#'
          split at h
          · rename_i r0
            obtain ⟨rfl, rfl⟩ : Sexp.boolean true = v ∧
                (⟨r0, s.depth⟩ : DState) = s' := by simpa using h
            exact ⟨(List.suffix_cons _ _).trans hrest, fun _ => rfl⟩
          · rename_i r0
            obtain ⟨rfl, rfl⟩ : Sexp.boolean false = v ∧
                (⟨r0, s.depth⟩ : DState) = s' := by simpa using h
            exact ⟨(List.suffix_cons _ _).trans hrest, fun _ => rfl⟩
          · rename_i r0
            rcases hid : parse_ident [105, 108] ⟨r0, s.depth⟩ with e | s1
            · rw [hid] at h; simp [Except.map] at h
            · rw [hid] at h
              simp [Except.map] at h
              obtain ⟨rfl, rfl⟩ := h
              obtain ⟨hsuf, hdep⟩ := parse_ident_suffix _ _ _ hid
              exact ⟨hsuf.trans ((List.suffix_cons _ _).trans hrest),
                fun _ => hdep⟩
          · exact absurd h (by simp)
          · exact absurd h (by simp)
        · split at h
          · -- '-'
            rcases hint : parse_integer false rest with e | ⟨num, r1⟩
            · rw [hint] at h; simp [Except.map] at h
            · rw [hint] at h
              simp [Except.map] at h
              obtain ⟨rfl, rfl⟩ := h
              exact ⟨(parse_integer_suffix _ _ _ _ hint).trans hrest,
                fun _ => rfl⟩
          · split at h
            · -- digit
              rcases hint : parse_integer true (peek :: rest) with e | ⟨num, r1⟩
              · rw [hint] at h; simp [Except.map] at h
              · rw [hint] at h
                simp [Except.map] at h
                obtain ⟨rfl, rfl⟩ := h
                exact ⟨(parse_integer_suffix _ _ _ _ hint).trans hsw,
                  fun _ => rfl⟩
            · split at h
              · -- '"'
                rcases hstr : parse_str rest with e | ⟨str, r1⟩
                · rw [hstr] at h; simp [Except.map] at h
                · rw [hstr] at h
                  simp [Except.map] at h
                  obtain ⟨rfl, rfl⟩ := h
                  exact ⟨(parse_str_suffix _ _ _ hstr).trans hrest,
                    fun _ => rfl⟩
              · split at h
                · -- '('
                  split at h
                  · exact absurd h (by simp)
                  · rename_i hd1
                    rcases hseq : seq_elements fuel true []
                        ⟨rest, (s.depth + 255) % 256⟩ with e | p1
                    · rw [hseq] at h; simp at h
                    · obtain ⟨elems, s1⟩ := p1
                      rw [hseq] at h
                      simp only [] at h
                      rcases hend : end_seq ⟨skip_ws s1.rem, (s1.depth + 1) % 256⟩
                          with e | s3
                      · rw [hend] at h; simp [Except.map] at h
                      · rw [hend] at h
                        simp [Except.map] at h
                        obtain ⟨rfl, rfl⟩ := h
                        obtain ⟨hsuf1, hdep1⟩ := ihe _ _ _ _ _ hseq
                        obtain ⟨hsuf3, hdep3⟩ := end_seq_inv _ _ hend
                        have hdep1' : s1.depth = (s.depth + 255) % 256 :=
                          hdep1 (by show (s.depth + 255) % 256 < 256; omega)
                        refine ⟨?_, ?_⟩
                        · exact hsuf3.trans ((skip_ws_suffix s1.rem).trans
                            (hsuf1.trans hrest))
                        · intro hlt
                          rw [hdep3]
                          simp only []
                          rw [hdep1']
                          exact depth_restore s.depth hlt
                · split at h
                  · -- letter
                    obtain ⟨rfl, rfl⟩ :
                        Sexp.atom (Atom.from_str (parse_symbol (peek :: rest)).1) = v ∧
                        (⟨(parse_symbol (peek :: rest)).2, s.depth⟩ : DState) = s' := by
                      simpa using h
                    exact ⟨(parse_symbol_suffix (peek :: rest)).trans hsw,
                      fun _ => rfl⟩
                  · exact absurd h (by simp)
    · -- seq_elements
      intro first acc s es s' h
      simp only [seq_elements] at h
      split at h
      · exact absurd h (by simp)
      · rename_i c r heq
        have hcr : r <:+ s.rem := by
          rw [heq]; exact List.suffix_cons c r
        split at h
        · obtain ⟨rfl, rfl⟩ : acc.reverse = es ∧ s = s' := by simpa using h
          exact ⟨List.suffix_refl _, fun _ => rfl⟩
        · split at h
          · obtain ⟨hsuf, hdep⟩ := ihc _ _ _ _ _ h
            exact ⟨hsuf.trans hcr, hdep⟩
          · split at h
            · obtain ⟨hsuf, hdep⟩ := ihc _ _ _ _ _ h
              exact ⟨hsuf.trans (skip_ws_suffix s.rem), hdep⟩
            · exact absurd h (by simp)
    · -- seq_cont
      intro first acc s es s' h
      simp only [seq_cont] at h
      split at h
      · exact absurd h (by simp)
      · split at h
        · cases h
          exact ⟨List.suffix_refl _, fun _ => rfl⟩
        · rcases hpv : parse_value fuel s with e | ⟨v, s1⟩
          · rw [hpv] at h; simp at h
          · rw [hpv] at h
            simp only [] at h
            obtain ⟨hsuf1, hdep1⟩ := ihv _ _ _ hpv
            obtain ⟨hsuf2, hdep2⟩ := ihe _ _ _ _ _ h
            exact ⟨hsuf2.trans hsuf1,
              fun hlt => (hdep2 (by rw [hdep1 hlt]; exact hlt)).trans
                (hdep1 hlt)⟩

/-! ## Stream lemmas: the items produced depend only on the deserializer
component of the stream state, not on the cached offset or total. -/

theorem stream_next_de (st1 st2 : StreamState) (h : st1.de = st2.de) :
    (stream_next st1).1 = (stream_next st2).1 ∧
    ((stream_next st1).2).de = ((stream_next st2).2).de := by
  obtain ⟨t1, de1, o1⟩ := st1
  obtain ⟨t2, de2, o2⟩ := st2
  obtain rfl : de1 = de2 := h
  simp only [stream_next]
  refine ⟨?_, ?_⟩ <;> (split <;> first | rfl | (split <;> rfl))

theorem stream_take_de :
    ∀ (n : Nat) (st1 st2 : StreamState), st1.de = st2.de →
      stream_take n st1 = stream_take n st2 := by
  intro n
  induction n with
  | zero => intro st1 st2 _; rfl
  | succ n ih =>
    intro st1 st2 h
    obtain ⟨h1, h2⟩ := stream_next_de st1 st2 h
    simp only [stream_take, h1, ih _ _ h2]

/-! ## Arithmetic lemmas for the number algorithm -/

theorem extendVal_cons (res c : Nat) (l : List Nat) :
    extendVal res (c :: l) = extendVal (res * 10 + (c - 48)) l := rfl

theorem extendVal_ge (res : Nat) (l : List Nat) : res ≤ extendVal res l := by
  induction l generalizing res with
  | nil => exact Nat.le_refl _
  | cons c r ih =>
    rw [extendVal_cons]
    exact le_trans (by omega) (ih (res * 10 + (c - 48)))

theorem extendVal_lower (l : List Nat) (res : Nat) :
    res * 10 ^ l.length ≤ extendVal res l := by
  induction l generalizing res with
  | nil => simp [extendVal]
  | cons c r ih =>
    rw [extendVal_cons]
    calc res * 10 ^ (c :: r).length = res * 10 * 10 ^ r.length := by
          rw [List.length_cons]; ring
      _ ≤ (res * 10 + (c - 48)) * 10 ^ r.length := by
          exact Nat.mul_le_mul_right _ (by omega)
      _ ≤ extendVal (res * 10 + (c - 48)) r := ih _

theorem is_digit_iff (c : Nat) : is_digit c = true ↔ 48 ≤ c ∧ c ≤ 57 := by
  simp [is_digit]

theorem overflow_check_iff (a b : Nat) (hb : b ≤ 9) :
    overflow_check a b = true ↔ U64MAX < a * 10 + b := by
  simp only [overflow_check, U64MAX, Bool.and_eq_true, Bool.or_eq_true,
    decide_eq_true_eq]
  omega

theorem parse_integer_loop_run (l : List Nat) :
    ∀ (res : Nat) (pos : Bool), (∀ c ∈ l, is_digit c = true) →
      extendVal res l ≤ U64MAX →
      parse_integer_loop pos res l = parse_number pos (extendVal res l) [] := by
  induction l with
  | nil => intro res pos _ _; rfl
  | cons c r ih =>
    intro res pos hd hle
    have hc : is_digit c = true := hd c (by simp)
    have hc' : c - 48 ≤ 9 := by
      rw [is_digit_iff] at hc; omega
    have hstep : res * 10 + (c - 48) ≤ U64MAX := by
      calc res * 10 + (c - 48) ≤ extendVal (res * 10 + (c - 48)) r :=
            extendVal_ge _ _
        _ = extendVal res (c :: r) := (extendVal_cons res c r).symm
        _ ≤ U64MAX := hle
    have hovf : overflow_check res (c - 48) = false := by
      rw [← Bool.not_eq_true, overflow_check_iff _ _ hc']
      omega
    simp only [parse_integer_loop, hc, if_true, hovf, Bool.false_eq_true,
      if_false, extendVal_cons]
    exact ih _ pos (fun x hx => hd x (by simp [hx])) (by
      rw [← extendVal_cons]; exact hle)

theorem parse_long_integer_run (l : List Nat) :
    ∀ (pos : Bool) (sig : Nat) (exp : Int), (∀ c ∈ l, is_digit c = true) →
      parse_long_integer pos sig exp l =
        (f64_from_parts pos sig (exp + l.length)).map (fun f => (f, [])) := by
  induction l with
  | nil =>
    intro pos sig exp _
    simp [parse_long_integer]
  | cons c r ih =>
    intro pos sig exp hd
    have hc : is_digit c = true := hd c (by simp)
    simp only [parse_long_integer, hc, if_true]
    rw [ih pos sig (exp + 1) (fun x hx => hd x (by simp [hx]))]
    congr 2
    simp only [List.length_cons]
    push_cast
    ring

theorem parse_integer_loop_overflow (l : List Nat) :
    ∀ (res : Nat) (pos : Bool), (∀ c ∈ l, is_digit c = true) →
      res ≤ U64MAX → U64MAX < extendVal res l →
      ∃ (sig : Nat) (exp : Int),
        parse_integer_loop pos res l =
          (f64_from_parts pos sig exp).map (fun f => (DNum.F64 f, [])) ∧
        sig ≤ U64MAX ∧ 1 ≤ exp ∧ exp ≤ (l.length : Int) := by
  induction l with
  | nil =>
    intro res pos _ hres hlt
    simp [extendVal] at hlt
    omega
  | cons c r ih =>
    intro res pos hd hres hlt
    have hc : is_digit c = true := hd c (by simp)
    have hc' : c - 48 ≤ 9 := by
      rw [is_digit_iff] at hc; omega
    by_cases hovf : overflow_check res (c - 48) = true
    · refine ⟨res, 1 + r.length, ?_, hres, by omega, by
        simp [List.length_cons]; omega⟩
      simp only [parse_integer_loop, hc, if_true, hovf, if_true]
      rw [parse_long_integer_run r pos res 1 (fun x hx => hd x (by simp [hx]))]
      rcases hfp : f64_from_parts pos res (1 + (r.length : Int)) with e | f <;>
        simp [hfp, Except.map]
    · rw [Bool.not_eq_true] at hovf
      have hstep : res * 10 + (c - 48) ≤ U64MAX := by
        have hiff := overflow_check_iff res (c - 48) hc'
        rw [hovf] at hiff
        simp only [Bool.false_eq_true, false_iff, Nat.not_lt] at hiff
        exact hiff
      have hlt' : U64MAX < extendVal (res * 10 + (c - 48)) r := by
        rw [← extendVal_cons]; exact hlt
      obtain ⟨sig, exp, heq, hs, h1, h2⟩ :=
        ih (res * 10 + (c - 48)) pos (fun x hx => hd x (by simp [hx])) hstep hlt'
      refine ⟨sig, exp, ?_, hs, h1, by
        simp only [List.length_cons]; push_cast; omega⟩
      simp only [parse_integer_loop, hc, if_true, hovf, Bool.false_eq_true,
        if_false]
      exact heq

theorem castI64_wrapNeg_le (m : Nat) (h : m ≤ 2 ^ 63) :
    wrapNegI64 (castI64 m) = -(m : Int) := by
  simp only [castI64, wrapNegI64]
  split <;> omega

theorem castI64_wrapNeg_gt (m : Nat) (h1 : 2 ^ 63 < m) (h2 : m < 2 ^ 64) :
    wrapNegI64 (castI64 m) = (2 : Int) ^ 64 - m ∧ (0 : Int) < 2 ^ 64 - m := by
  simp only [castI64, wrapNegI64]
  constructor
  · split <;> omega
  · omega

theorem parse_integer_digit (pos : Bool) (c : Nat) (r : List Nat)
    (h49 : 49 ≤ c) (h57 : c ≤ 57) :
    parse_integer pos (c :: r) = parse_integer_loop pos (c - 48) r := by
  rw [parse_integer.eq_def]
  split
  · rename_i r0 heq
    injection heq with h1 h2
    omega
  · rename_i c2 r2 hne heq
    injection heq with h1 h2
    subst h1
    subst h2
    rw [if_pos ⟨h49, h57⟩]
  · rename_i heq
    simp at heq

/-! ## Dispatch lemma: a digit-headed input goes through `parse_integer`. -/

theorem parse_value_digit (fuel : Nat) (c : Nat) (r : List Nat) (d : Nat)
    (h49 : 49 ≤ c) (h57 : c ≤ 57) :
    parse_value (fuel + 1) ⟨c :: r, d⟩ =
      (parse_integer true (c :: r)).map
        (fun p => (visit_num p.1, ⟨p.2, d⟩)) := by
  have hws : is_ws c = false := by
    simp only [is_ws]
    simp only [Bool.or_eq_false_iff, decide_eq_false_iff_not]
    omega
  have hsw : skip_ws (c :: r) = c :: r := skip_ws_of_head c r hws
  simp only [parse_value]
  rw [hsw]
  dsimp only
  rw [if_neg (by omega : ¬ c = 35), if_neg (by omega : ¬ c = 45),
    if_pos (by rw [is_digit_iff]; omega)]

/-! ## Key serialization rejection (src/ser.rs `MapKeySerializer`) -/

theorem serialize_key_rejects (f : Fmt) (k : SerValue)
    (hk : (∃ b, k = .bool b) ∨ (∃ x, k = .f64 x)) :
    serialize_key f k = .error .KeyMustBeAString := by
  rcases hk with ⟨b, rfl⟩ | ⟨x, rfl⟩ <;> rfl

theorem serialize_map_key_rejects (f : Fmt) (k v : SerValue)
    (rest : List (SerValue × SerValue))
    (hk : (∃ b, k = .bool b) ∨ (∃ x, k = .f64 x)) :
    serialize f (.map ((k, v) :: rest)) = .error .KeyMustBeAString := by
  have hkey := serialize_key_rejects (fmt_begin_object_key true
    (fmt_begin_object f).2).2 k hk
  simp only [serialize, serialize_entries, hkey]

/-! ## Claim theorems -/

/-- C1: the general value-parsing path (`parse_value`, as used by
`from_str` on a generic `Sexp` target) maps the literal `#nil` to
`visit_bool(true)`, so it decodes to `Boolean true` — not to the `Nil`
value the spec (and the encoder, whose `write_null` emits exactly these
bytes) assign to that token.  This evaluates the code at the failing input
of the code bug. -/
theorem claim_c1_nil_literal :
    from_str_sexp [35, 110, 105, 108] = .ok (.boolean true) ∧
    write_null = [35, 110, 105, 108] :=
  ⟨rfl, rfl⟩

/-- C2 (counterexample): encoding a keyed aggregate whose key is a boolean
does return a `KeyMustBeAString` error, but `Error::classify` places
`KeyMustBeAString` in the `Syntax` arm, so the error's category is
`Syntax`, not `Data` as the claim states. -/
theorem claim_c2_counterexample :
    to_string_compact (.map [(.bool true, .bool true)]) =
      .error .KeyMustBeAString ∧
    classify .KeyMustBeAString = .Syntax ∧
    Category.Syntax ≠ Category.Data :=
  ⟨rfl, rfl, by decide⟩

/-- C2 (amended): for every formatter state (compact or pretty, any
position) and every keyed aggregate whose key is a boolean or a float, the
encoder returns an error whose code is `KeyMustBeAString` and whose
`classify` category is `Syntax`. -/
theorem claim_c2_key_rejection (f : Fmt) (k v : SerValue)
    (rest : List (SerValue × SerValue))
    (hk : (∃ b, k = .bool b) ∨ (∃ x, k = .f64 x)) :
    to_string_fmt f (.map ((k, v) :: rest)) = .error .KeyMustBeAString ∧
    classify .KeyMustBeAString = .Syntax := by
  refine ⟨?_, rfl⟩
  simp [to_string_fmt, serialize_map_key_rejects f k v rest hk, Except.map]

/-- C2 witness: the amended claim at concrete inputs, for both the compact
and the pretty formatter, one boolean and one float key. -/
theorem claim_c2_key_rejection_witness :
    to_string_compact (.map [(.bool true, .u64 1)]) =
      .error .KeyMustBeAString ∧
    to_string_pretty (.map [(.f64 ⟨false, 1, 0⟩, .u64 1)]) =
      .error .KeyMustBeAString := by
  constructor
  · exact (claim_c2_key_rejection .compact (.bool true) (.u64 1) []
      (Or.inl ⟨true, rfl⟩)).1
  · exact (claim_c2_key_rejection (.pretty [32, 32] 0 false)
      (.f64 ⟨false, 1, 0⟩) (.u64 1) [] (Or.inr ⟨⟨false, 1, 0⟩, rfl⟩)).1

/-- C3: decoding the byte sequence `"(a "` (a list element followed by a
single space and then end of input) through the generic value path reaches
the `self.de.peek()?.unwrap()` call in `SeqAccess::next_element_seed` with
an exhausted input and panics (`PErr.crash`) instead of returning an error
result.  This evaluates the code at the failing input of the code bug. -/
theorem claim_c3_panic_on_truncated_list :
    from_str_sexp [40, 97, 32] = .error .crash :=
  rfl

theorem parse_value_paren (f : Nat) (rest : List Nat) (d : Nat) :
    parse_value (f + 1) ⟨40 :: rest, d⟩ =
      (if (d + 255) % 256 = 0 then .error (.code .RecursionLimitExceeded)
       else match seq_elements f true [] ⟨rest, (d + 255) % 256⟩ with
         | .error e => .error e
         | .ok (elems, s1) =>
           (end_seq ⟨skip_ws s1.rem, (s1.depth + 1) % 256⟩).map
             (fun s3 => (Sexp.list elems, s3))) := by
  simp only [parse_value]
  rw [skip_ws_of_head 40 rest rfl]
  dsimp only
  rw [if_neg (by omega : ¬ (40 : Nat) = 35),
    if_neg (by omega : ¬ (40 : Nat) = 45),
    if_neg (by simp [is_digit]),
    if_neg (by omega : ¬ (40 : Nat) = 34),
    if_pos rfl]

theorem seq_elements_paren (f : Nat) (first : Bool) (acc : List Sexp)
    (rest : List Nat) (d : Nat) :
    seq_elements (f + 1) first acc ⟨40 :: rest, d⟩ =
      (if first then seq_cont f false acc ⟨40 :: rest, d⟩
       else .error (.code .ExpectedListEltOrEnd)) := by
  simp only [seq_elements]
  rw [if_neg (by omega : ¬ (40 : Nat) = 41),
    if_neg (by omega : ¬ (40 : Nat) = 32),
    skip_ws_of_head 40 rest rfl]

theorem seq_cont_paren (f : Nat) (first : Bool) (acc : List Sexp)
    (rest : List Nat) (d : Nat) :
    seq_cont (f + 1) first acc ⟨40 :: rest, d⟩ =
      (match parse_value f ⟨40 :: rest, d⟩ with
       | .error e => .error e
       | .ok (v, s') => seq_elements f first (v :: acc) s') := by
  simp only [seq_cont]
  rw [if_neg (by omega : ¬ (40 : Nat) = 41)]

/-- Nested unclosed parentheses exhaust the recursion counter: at any
starting depth `1 ≤ d < 256`, with at least `d` parens available and fuel
at least `3 * d`, the general value path raises `RecursionLimitExceeded`. -/
theorem parens_exhaust_depth :
    ∀ (d f j : Nat), 1 ≤ d → d < 256 → d ≤ j → 3 * d ≤ f →
      parse_value f ⟨List.replicate j 40, d⟩ =
        .error (.code .RecursionLimitExceeded) := by
  intro d
  induction d with
  | zero => intro f j h1 _ _ _; omega
  | succ d ih =>
    intro f j h1 h256 hj hf
    obtain ⟨f0, rfl⟩ : ∃ f0, f = f0 + 3 := ⟨f - 3, by omega⟩
    obtain ⟨j0, rfl⟩ : ∃ j0, j = j0 + 1 := ⟨j - 1, by omega⟩
    rw [List.replicate_succ]
    rw [show f0 + 3 = (f0 + 2) + 1 from rfl, parse_value_paren]
    have hd1 : (d + 1 + 255) % 256 = d := by omega
    rw [hd1]
    by_cases hd0 : d = 0
    · rw [if_pos hd0]
    · rw [if_neg hd0]
      obtain ⟨j1, rfl⟩ : ∃ j1, j0 = j1 + 1 := ⟨j0 - 1, by omega⟩
      rw [List.replicate_succ]
      rw [show f0 + 2 = (f0 + 1) + 1 from rfl, seq_elements_paren, if_pos rfl]
      rw [seq_cont_paren]
      have hih := ih f0 (j1 + 1) (by omega) (by omega) (by omega) (by omega)
      rw [List.replicate_succ] at hih
      rw [hih]

set_option maxRecDepth 100000 in
/-- C4 (counterexample): an input of 129 nested unclosed `(` characters
decoded into a keyed-record (struct) target does not yield
`RecursionLimitExceeded`: `deserialize_struct` never touches
`remaining_depth`, and the decode fails at the first key position with
`ExpectedSomeIdent`. -/
theorem claim_c4_counterexample :
    from_str_struct parens129 = .error (.code .ExpectedSomeIdent) ∧
    ErrorCode.ExpectedSomeIdent ≠ ErrorCode.RecursionLimitExceeded :=
  ⟨rfl, by decide⟩

set_option maxRecDepth 100000 in
/-- C4 (amended): the recursion counter starts at 128 and is decremented
and restored by the general value path, and an input of 129 nested
unclosed `(` characters decoded at a generic value target yields a
Syntax-category `RecursionLimitExceeded` error; a keyed-record (struct)
target does not consult the counter and the same input fails with
`ExpectedSomeIdent` at the key position instead. -/
theorem claim_c4_recursion_limit :
    from_str_sexp parens129 = .error (.code .RecursionLimitExceeded) ∧
    classify .RecursionLimitExceeded = .Syntax ∧
    from_str_struct parens129 = .error (.code .ExpectedSomeIdent) := by
  refine ⟨?_, rfl, rfl⟩
  have hfuel : fuelFor parens129 = 532 := by
    simp [fuelFor, parens129]
  simp only [from_str_sexp, hfuel]
  rw [show parens129 = List.replicate 129 40 from rfl]
  rw [parens_exhaust_depth 128 532 129 (by omega) (by omega) (by omega)
    (by omega)]

/-- C7: `Atom::discriminate` turns a payload starting with the `#:` marker
into a `Keyword` with the marker removed, and any unquoted payload into a
`Symbol`; but a payload delimited by matching quotes keeps its trailing
quote (`&s[1..s.len()]` only strips the leading one): `"ab"` becomes the
string `ab"`, not `ab`.  This evaluates the code at the failing input of
the code bug. -/
theorem claim_c7_discriminate :
    Atom.discriminate [35, 58, 97, 98] = .keyword [97, 98] ∧
    Atom.discriminate [34, 97, 98, 34] = .string [97, 98, 34] ∧
    Atom.discriminate [97, 98] = .symbol [97, 98] :=
  ⟨rfl, rfl, rfl⟩

/-- C9: the non-streaming entry points (`from_trait`, shared by
`from_str`/`from_slice`/`from_reader`) succeed only when the whole input is
consumed: whenever the single value parse succeeds, a remaining non-
whitespace byte turns the call into a `TrailingCharacters` error, while
remaining whitespace alone leaves the decoded value. -/
theorem claim_c9_entire_input (input : List Nat) (v : Sexp) (s' : DState)
    (h : parse_value (fuelFor input) ⟨input, 128⟩ = .ok (v, s')) :
    ((∀ c ∈ s'.rem, is_ws c = true) → from_str_sexp input = .ok v) ∧
    ((∃ c ∈ s'.rem, is_ws c = false) →
      from_str_sexp input = .error (.code .TrailingCharacters)) := by
  constructor
  · intro hws
    simp only [from_str_sexp, h, end_input]
    rw [(skip_ws_nil_iff s'.rem).mpr hws]
  · rintro ⟨c, hc, hcw⟩
    simp only [from_str_sexp, h, end_input]
    rcases hsw : skip_ws s'.rem with _ | ⟨x, xs⟩
    · have := (skip_ws_nil_iff s'.rem).mp hsw c hc
      rw [this] at hcw
      cases hcw
    · rfl

/-- C9 witness: `#t` followed by a space decodes; `#t x` is rejected with
`TrailingCharacters`. -/
theorem claim_c9_entire_input_witness :
    from_str_sexp [35, 116, 32] = .ok (.boolean true) ∧
    from_str_sexp [35, 116, 32, 120] = .error (.code .TrailingCharacters) := by
  constructor
  · exact (claim_c9_entire_input [35, 116, 32] (.boolean true)
      ⟨[32], 128⟩ rfl).1 (by decide)
  · exact (claim_c9_entire_input [35, 116, 32, 120] (.boolean true)
      ⟨[32, 120], 128⟩ rfl).2 ⟨120, by decide, by decide⟩

/-- C10: at an optional target, `deserialize_option` treats a leading `n`
(after whitespace) as the bare `nil` token — it consumes the `n`, requires
the following bytes to be `il` and yields `None`; any other leading byte
is decoded as a present value through the general value path, so `#nil` at
an option position decodes as `Some (Boolean true)`, not as absent. -/
theorem claim_c10_option_nil (fuel : Nat) (s : DState) :
    (∀ rest, skip_ws s.rem = 110 :: rest →
      deserialize_option fuel s =
        (if rest.take 2 = [105, 108]
         then .ok (none, ⟨rest.drop 2, s.depth⟩)
         else .error (.code .ExpectedSomeIdent))) ∧
    (∀ c rest, skip_ws s.rem = c :: rest → c ≠ 110 →
      deserialize_option fuel s =
        (parse_value fuel ⟨c :: rest, s.depth⟩).map
          (fun p => (some p.1, p.2))) ∧
    from_str_option [35, 110, 105, 108] = .ok (some (.boolean true)) := by
  refine ⟨?_, ?_, rfl⟩
  · intro rest hsw
    simp only [deserialize_option]
    rw [hsw]
    dsimp only
    rcases rest with _ | ⟨x, rest1⟩
    · simp [parse_ident, Except.map]
    · by_cases hx : x = 105
      · subst hx
        rcases rest1 with _ | ⟨y, rest2⟩
        · simp [parse_ident, Except.map]
        · by_cases hy : y = 108
          · subst hy
            simp [parse_ident, Except.map]
          · simp [parse_ident, hy, Except.map]
      · simp [parse_ident, hx, Except.map]
  · intro c rest hsw hc
    unfold deserialize_option
    rw [hsw]
    split
    · rename_i r heq
      injection heq with h1 h2
      exact absurd h1 hc
    · rfl

/-- C10 witness: the theorem applied at the inputs `nil`, `nix` and
`#nil` (all at depth 128, with the canonical fuel). -/
theorem claim_c10_option_nil_witness :
    deserialize_option (fuelFor [110, 105, 108]) ⟨[110, 105, 108], 128⟩ =
      .ok (none, ⟨[], 128⟩) ∧
    deserialize_option (fuelFor [110, 105, 120]) ⟨[110, 105, 120], 128⟩ =
      .error (.code .ExpectedSomeIdent) ∧
    deserialize_option (fuelFor [35, 110, 105, 108]) ⟨[35, 110, 105, 108], 128⟩ =
      .ok (some (.boolean true), ⟨[], 128⟩) := by
  refine ⟨?_, ?_, ?_⟩
  · have h := (claim_c10_option_nil (fuelFor [110, 105, 108])
      ⟨[110, 105, 108], 128⟩).1 [105, 108] (by decide)
    rw [h]
    rfl
  · have h := (claim_c10_option_nil (fuelFor [110, 105, 120])
      ⟨[110, 105, 120], 128⟩).1 [105, 120] (by decide)
    rw [h]
    rfl
  · have h := (claim_c10_option_nil (fuelFor [35, 110, 105, 108])
      ⟨[35, 110, 105, 108], 128⟩).2.1 35 [110, 105, 108] (by decide)
      (by decide)
    rw [h]
    rfl

/-- C8: one step of the streaming decoder.  Whitespace is skipped; at end
of input no item is yielded; a non-`(` first byte yields an `ExpectedList`
error; on `(`, when one full value decodes, the value is yielded, the
reported `byte_offset` moves to the end of that value, and the bytes from
the reported offset onwards are exactly the decoder's remaining input, so
a fresh stream over `input.drop offset` yields the same remaining items. -/
theorem claim_c8_stream_next (input : List Nat) :
    (skip_ws input = [] →
      stream_next (mkStream input) =
        (none, ⟨input.length, ⟨[], 128⟩, input.length⟩)) ∧
    (∀ c r, skip_ws input = c :: r → c ≠ 40 →
      stream_next (mkStream input) =
        (some (.error (.code .ExpectedList)),
         ⟨input.length, ⟨c :: r, 128⟩, 0⟩)) ∧
    (∀ r v s', skip_ws input = 40 :: r →
      parse_value (fuelFor (40 :: r)) ⟨40 :: r, 128⟩ = .ok (v, s') →
      stream_next (mkStream input) =
        (some (.ok v),
         ⟨input.length, s', input.length - s'.rem.length⟩) ∧
      input.drop (input.length - s'.rem.length) = s'.rem ∧
      (∀ n, stream_take n (stream_next (mkStream input)).2 =
        stream_take n
          (mkStream (input.drop (input.length - s'.rem.length))))) := by
  refine ⟨?_, ?_, ?_⟩
  · intro hsw
    simp only [stream_next, mkStream]
    rw [hsw]
  · intro c r hsw hc
    simp only [stream_next, mkStream]
    rw [hsw]
    split
    · rename_i heq
      exact absurd heq (by simp)
    · rename_i r2 heq
      injection heq with h1 h2
      exact absurd h1 hc
    · rename_i head tail h40 heq
      injection heq with h1 h2
      subst h1
      subst h2
      rfl
  · intro r v s' hsw hpv
    have hnext : stream_next (mkStream input) =
        (some (.ok v), ⟨input.length, s', input.length - s'.rem.length⟩) := by
      simp only [stream_next, mkStream]
      rw [hsw]
      dsimp only
      rw [hpv]
    have hsuffix : s'.rem <:+ input := by
      have h1 := ((parse_value_inv (fuelFor (40 :: r))).1 _ _ _ hpv).1
      have h2 : (40 :: r) <:+ input := hsw ▸ skip_ws_suffix input
      exact h1.trans h2
    have hdrop : input.drop (input.length - s'.rem.length) = s'.rem :=
      suffix_drop_length hsuffix
    have hdepth : s'.depth = 128 :=
      ((parse_value_inv (fuelFor (40 :: r))).1 _ _ _ hpv).2
        (by show (128 : Nat) < 256; omega)
    refine ⟨hnext, hdrop, ?_⟩
    intro n
    rw [hnext, hdrop]
    apply stream_take_de
    show s' = (mkStream s'.rem).de
    simp only [mkStream]
    cases s'
    simp_all

/-- C8 witness: decoding the stream `(a) (b)`: the first item is the list
`(a)`, the offset advances to byte 3 (the end of `(a)`), and the stream
resumed from the reported offset agrees with the original stream on the
following items. -/
theorem claim_c8_stream_next_witness :
    stream_next (mkStream [40, 97, 41, 32, 40, 98, 41]) =
      (some (.ok (.list [.atom (.symbol [97])])),
       ⟨7, ⟨[32, 40, 98, 41], 128⟩, 3⟩) ∧
    stream_take 2 (stream_next (mkStream [40, 97, 41, 32, 40, 98, 41])).2 =
      stream_take 2 (mkStream [32, 40, 98, 41]) := by
  have h := (claim_c8_stream_next [40, 97, 41, 32, 40, 98, 41]).2.2
    [97, 41, 32, 40, 98, 41] (.list [.atom (.symbol [97])])
    ⟨[32, 40, 98, 41], 128⟩ rfl rfl
  refine ⟨h.1, ?_⟩
  have h3 := h.2.2 2
  simpa using h3

set_option maxRecDepth 100000 in
/-- C6 (counterexample): the claim says every negative integer literal
whose magnitude exceeds `2^63` yields the Float variant; but the literal
`-10^309` (a `-` followed by a `1` and 309 zeros, magnitude far above
`2^63`) makes `f64_from_parts` overflow the `f64` range and the decoder
returns a `NumberOutOfRange` error instead of a Float. -/
theorem claim_c6_counterexample :
    parse_integer false bigLit = .error (.code .NumberOutOfRange) ∧
    (2 : Nat) ^ 63 < extendVal 0 bigLit ∧
    (¬ ∃ f r, parse_integer false bigLit = .ok (.F64 f, r)) := by
  refine ⟨rfl, ?_, ?_⟩
  · have h : extendVal 0 bigLit = 10 ^ 309 := by decide
    rw [h]
    norm_num
  · rintro ⟨f, r, hr⟩
    rw [show parse_integer false bigLit =
      .error (.code .NumberOutOfRange) from rfl] at hr
    cases hr

/-- C6 (amended): in `parse_integer`/`parse_number` the `-` sign is
applied after digit accumulation with `i64` wrapping semantics; writing
`m` for the literal's value, a negative literal yields the internal
`I64` (NegativeInteger) variant holding `-m` exactly when `m ≤ 2^63`,
yields `F64` (Float) when `2^63 < m < 2^64`, and beyond the `u64`
accumulator (`m ≥ 2^64`) follows the approximate path, yielding a Float
or — past the `f64` range — a `NumberOutOfRange` error; an unsigned
literal yields `U64` (PositiveInteger) exactly when `m < 2^64` and
otherwise likewise a Float or a `NumberOutOfRange` error. -/
theorem claim_c6_sign_application (ds : List Nat)
    (h1 : ∀ c ∈ ds, is_digit c = true) (h2 : ds ≠ [])
    (h3 : ds.head? = some 48 → ds = [48]) :
    (extendVal 0 ds ≤ 2 ^ 63 →
      parse_integer false ds = .ok (.I64 (-(extendVal 0 ds : Int)), [])) ∧
    (2 ^ 63 < extendVal 0 ds → extendVal 0 ds < 2 ^ 64 →
      parse_integer false ds = .ok (.F64 ⟨true, extendVal 0 ds, 0⟩, [])) ∧
    (2 ^ 64 ≤ extendVal 0 ds →
      (∃ f, parse_integer false ds = .ok (.F64 f, [])) ∨
      parse_integer false ds = .error (.code .NumberOutOfRange)) ∧
    (extendVal 0 ds < 2 ^ 64 →
      parse_integer true ds = .ok (.U64 (extendVal 0 ds), [])) ∧
    (2 ^ 64 ≤ extendVal 0 ds →
      (∃ f, parse_integer true ds = .ok (.F64 f, [])) ∨
      parse_integer true ds = .error (.code .NumberOutOfRange)) := by
  have p63 : (2 : Nat) ^ 63 = 9223372036854775808 := by norm_num
  have p64 : (2 : Nat) ^ 64 = 18446744073709551616 := by norm_num
  have humax : U64MAX = 18446744073709551615 := rfl
  rcases ds with _ | ⟨c, r⟩
  · exact absurd rfl h2
  by_cases hc48 : c = 48
  · subst hc48
    obtain rfl : r = [] := by
      have h48 := h3 rfl
      injection h48
    refine ⟨fun _ => rfl, ?_, ?_, fun _ => rfl, ?_⟩
    · intro h
      exact absurd h (by simp [extendVal, p63])
    · intro h
      exact absurd h (by simp [extendVal, p64])
    · intro h
      exact absurd h (by simp [extendVal, p64])
  · have hcd := h1 c (by simp)
    rw [is_digit_iff] at hcd
    have h49 : 49 ≤ c := by omega
    have hm : extendVal 0 (c :: r) = extendVal (c - 48) r := by
      rw [extendVal_cons]
      norm_num
    have hrd : ∀ x ∈ r, is_digit x = true := fun x hx => h1 x (by simp [hx])
    have hneg : parse_integer false (c :: r) = parse_integer_loop false (c - 48) r :=
      parse_integer_digit false c r h49 (by omega)
    have hpos : parse_integer true (c :: r) = parse_integer_loop true (c - 48) r :=
      parse_integer_digit true c r h49 (by omega)
    refine ⟨?_, ?_, ?_, ?_, ?_⟩
    · -- magnitude within 2^63: NegativeInteger
      intro h
      rw [hm] at h ⊢
      rw [hneg, parse_integer_loop_run r (c - 48) false hrd (by omega)]
      simp only [parse_number]
      rw [castI64_wrapNeg_le _ (by omega)]
      rw [if_neg (by omega : ¬ (0 : Int) < -(extendVal (c - 48) r : Int))]
      simp
    · -- magnitude between 2^63 and 2^64: Float
      intro hgt hlt
      rw [hm] at hgt hlt ⊢
      rw [hneg, parse_integer_loop_run r (c - 48) false hrd (by omega)]
      simp only [parse_number]
      obtain ⟨he, hpos'⟩ :=
        castI64_wrapNeg_gt (extendVal (c - 48) r) (by omega) (by omega)
      rw [he, if_pos hpos']
      simp
    · -- magnitude beyond u64: Float or NumberOutOfRange
      intro h
      rw [hm] at h
      rw [hneg]
      obtain ⟨sig, exp, heq, _, _, _⟩ :=
        parse_integer_loop_overflow r (c - 48) false hrd (by omega) (by omega)
      rw [heq]
      rcases hfp : f64_from_parts false sig exp with e | f
      · right
        have he : e = .code .NumberOutOfRange := by
          simp only [f64_from_parts] at hfp
          split at hfp
          · injection hfp with h'
            exact h'.symm
          · exact absurd hfp (by simp)
        rw [he]
        rfl
      · left
        exact ⟨f, rfl⟩
    · -- unsigned within u64: PositiveInteger
      intro h
      rw [hm] at h ⊢
      rw [hpos, parse_integer_loop_run r (c - 48) true hrd (by omega)]
      rfl
    · -- unsigned beyond u64: Float or NumberOutOfRange
      intro h
      rw [hm] at h
      rw [hpos]
      obtain ⟨sig, exp, heq, _, _, _⟩ :=
        parse_integer_loop_overflow r (c - 48) true hrd (by omega) (by omega)
      rw [heq]
      rcases hfp : f64_from_parts true sig exp with e | f
      · right
        have he : e = .code .NumberOutOfRange := by
          simp only [f64_from_parts] at hfp
          split at hfp
          · injection hfp with h'
            exact h'.symm
          · exact absurd hfp (by simp)
        rw [he]
        rfl
      · left
        exact ⟨f, rfl⟩

/-- C6 witness: the literal `-5` decodes to the internal `I64` variant
holding `-5`. -/
theorem claim_c6_sign_application_witness :
    parse_integer false [53] = .ok (.I64 (-5), []) := by
  have h := (claim_c6_sign_application [53] (by decide) (by decide)
    (by intro h; simp at h)).1 (by decide)
  have h5 : extendVal 0 [53] = 5 := rfl
  rw [h5] at h
  simpa using h

set_option maxRecDepth 100000 in
set_option maxHeartbeats 2000000 in
/-- C5: decoding the exact decimal text of `u64::MAX` yields the
`PositiveInteger` variant holding exactly that value, and decoding any
integer literal with one more digit than fits in 64 bits (21 digits, no
leading zero) switches to the approximate path and yields the `Float`
variant — not an error. -/
theorem claim_c5_number_boundary :
    from_str_sexp maxText = .ok (.number (.PosInt 18446744073709551615)) ∧
    (∀ ds : List Nat, ds.length = 21 → (∀ c ∈ ds, is_digit c = true) →
      ds.head? ≠ some 48 →
      ∃ f : Fl, from_str_sexp ds = .ok (.number (.Float f))) := by
  constructor
  · rfl
  · intro ds h21 hd hhead
    rcases ds with _ | ⟨c, r⟩
    · simp at h21
    have hcd := hd c (by simp)
    rw [is_digit_iff] at hcd
    have h49 : 49 ≤ c := by
      rcases Nat.lt_or_ge c 49 with hlt | hge
    -- a 21-digit literal cannot start with 0
      · exact absurd (by omega : c = 48) (fun hc => hhead (by rw [hc]; rfl))
      · exact hge
    have hrd : ∀ x ∈ r, is_digit x = true := fun x hx => hd x (by simp [hx])
    have hr20 : r.length = 20 := by simpa using h21
    have hlow : 10 ^ 20 ≤ extendVal (c - 48) r := by
      have hl1 : (c - 48) * 10 ^ r.length ≤ extendVal (c - 48) r :=
        extendVal_lower r (c - 48)
      rw [hr20] at hl1
      have hl2 : 1 * 10 ^ 20 ≤ (c - 48) * 10 ^ 20 :=
        Nat.mul_le_mul_right _ (by omega)
      rw [Nat.one_mul] at hl2
      exact le_trans hl2 hl1
    have hover : U64MAX < extendVal (c - 48) r := by
      have hlt : U64MAX < 10 ^ 20 := by norm_num [U64MAX]
      omega
    obtain ⟨sig, exp, heq, hs, hx1, hx2⟩ :=
      parse_integer_loop_overflow r (c - 48) true hrd
        (by norm_num [U64MAX]; omega) hover
    have hnoovf : f64_overflow sig exp = false := by
      have hexp20 : exp ≤ 20 := by rw [hr20] at hx2; exact_mod_cast hx2
      have htn : exp.toNat ≤ 20 := by omega
      have hb : sig * 10 ^ exp.toNat ≤ U64MAX * 10 ^ 20 :=
        Nat.mul_le_mul hs (Nat.pow_le_pow_right (by norm_num) htn)
      have hbig : U64MAX * 10 ^ 20 < 2 ^ 1024 := by norm_num [U64MAX]
      simp only [f64_overflow]
      rw [if_pos (by omega : (0 : Int) ≤ exp),
        if_pos (by omega : exp ≤ 308)]
      simp only [decide_eq_false_iff_not, Nat.not_le]
      omega
    have hffp : f64_from_parts true sig exp = .ok ⟨false, sig, exp⟩ := by
      simp [f64_from_parts, hnoovf]
    refine ⟨⟨false, sig, exp⟩, ?_⟩
    obtain ⟨f0, hf0⟩ : ∃ f0, fuelFor (c :: r) = f0 + 1 :=
      ⟨4 * (c :: r).length + 15, rfl⟩
    simp only [from_str_sexp]
    rw [hf0, parse_value_digit f0 c r 128 h49 (by omega)]
    rw [parse_integer_digit true c r h49 (by omega)]
    rw [heq, hffp]
    rfl

set_option maxRecDepth 100000 in
set_option maxHeartbeats 2000000 in
/-- C5 witness: the 21-digit literal formed by appending a `0` to the
text of `u64::MAX` decodes to a Float. -/
theorem claim_c5_number_boundary_witness :
    ∃ f : Fl, from_str_sexp (maxText ++ [48]) = .ok (.number (.Float f)) :=
  claim_c5_number_boundary.2 (maxText ++ [48]) (by decide) (by decide)
    (by decide)

end SexprSpec
